import Mathlib

/-!
Shallow embedding of `android/native/analyze_dumpbinary_logs.py`, a log
statistics reporter: regex extraction of timed events, percentile
computation, summary statistics, and segment averaging.

Modelling conventions:
* Python floats are modelled by exact rational arithmetic (`ℚ`); all inputs
  are integers, so the real-number formulas of the script are represented
  exactly.
* Python `int(x)` (truncation toward zero) is `pyInt`.
* Python list indexing `l[i]` is `List.getD l i 0`; every use below is at an
  index proved to be in range, matching the script where indexing never
  raises.
* Python `re` scanning is modelled over `List Char`, with `\s` as the six
  ASCII whitespace characters and `\d` as the ASCII digits.
* The effectful driver `main` is modelled as a pure function of the two
  file-existence facts, recording exit code, stderr lines, whether a report
  went to stdout and whether parsing ran.
-/

namespace DumpBinary

/-- Python `int()` on a rational: truncation toward zero. -/
def pyInt (q : ℚ) : ℤ := if 0 ≤ q then ⌊q⌋ else ⌈q⌉

/-- Python `min(list)` over a nonempty list (0 on `[]`, a case the script
never reaches). -/
def pyMin : List ℚ → ℚ
  | [] => 0
  | x :: xs => xs.foldl min x

/-- Python `max(list)` over a nonempty list (0 on `[]`, a case the script
never reaches). -/
def pyMax : List ℚ → ℚ
  | [] => 0
  | x :: xs => xs.foldl max x

/-- `percentile(sorted_arr, p)` from the script:
`k = (len-1)*p/100; f = int(k); c = f+1 if f+1 < len else f;`
then `s[f] + (k-f)*(s[c]-s[f]) if c > f else s[f]`, and `0` on an empty
array. -/
def percentile (sorted_arr : List ℚ) (p : ℚ) : ℚ :=
  if sorted_arr = [] then 0
  else
    let k : ℚ := ((sorted_arr.length : ℚ) - 1) * p / 100
    let f : ℤ := pyInt k
    let c : ℤ := if f + 1 < (sorted_arr.length : ℤ) then f + 1 else f
    if c > f then
      sorted_arr.getD f.toNat 0 +
        (k - (f : ℚ)) * (sorted_arr.getD c.toNat 0 - sorted_arr.getD f.toNat 0)
    else sorted_arr.getD f.toNat 0

/-- The percentile formula exactly as the specification states it:
`k = (n-1)*p/100`, `f = floor k`, `c = min (f+1) (n-1)`, result
`s[f] + (k-f)*(s[c]-s[f])` when `c > f`, else `s[f]`. Spec-side definition,
used only to compare against `percentile`. -/
def percentileSpec (s : List ℚ) (p : ℚ) : ℚ :=
  let k : ℚ := ((s.length : ℚ) - 1) * p / 100
  let f : ℤ := ⌊k⌋
  let c : ℤ := min (f + 1) ((s.length : ℤ) - 1)
  if c > f then
    s.getD f.toNat 0 + (k - (f : ℚ)) * (s.getD c.toNat 0 - s.getD f.toNat 0)
  else s.getD f.toNat 0

/-- The record returned by `stats`. -/
structure SummaryStats where
  name : String
  n : ℕ
  min : ℚ
  max : ℚ
  mean : ℚ
  p50 : ℚ
  p90 : ℚ
  p95 : ℚ
  p99 : ℚ
  fails : ℕ
  fail_rate : ℚ
  deriving DecidableEq

/-- `stats(data, name)` from the script: `None` on empty data, else the
summary record computed from the duration list and failure flags. -/
def stats (data : List (ℚ × Bool)) (name : String) : Option SummaryStats :=
  if data = [] then none
  else
    let ms_list := data.map Prod.fst
    let fails := (data.filter (fun x => x.2)).length
    let n := ms_list.length
    let s := List.insertionSort (· ≤ ·) ms_list
    some
      { name := name
        n := n
        min := pyMin ms_list
        max := pyMax ms_list
        mean := ms_list.sum / (n : ℚ)
        p50 := percentile s 50
        p90 := percentile s 90
        p95 := percentile s 95
        p99 := percentile s 99
        fails := fails
        fail_rate := if n ≠ 0 then 100 * (fails : ℚ) / (n : ℚ) else 0 }

/-- One emitted segment record `(i+1, start+1, end, count, avg, fails, rate)`
of `segment_avgs`. -/
structure Segment where
  idx : ℕ
  startOrd : ℕ
  endOrd : ℕ
  count : ℕ
  avg_ms : ℚ
  fail_count : ℕ
  fail_rate : ℚ
  deriving DecidableEq

/-- `start = int(i * seg_size)` with `seg_size = n / num_segments`. -/
def segStart (n N i : ℕ) : ℕ :=
  (pyInt ((i : ℚ) * ((n : ℚ) / (N : ℚ)))).toNat

/-- `end = int((i+1) * seg_size) if i < num_segments - 1 else n`. -/
def segEnd (n N i : ℕ) : ℕ :=
  if i < N - 1 then (pyInt (((i : ℚ) + 1) * ((n : ℚ) / (N : ℚ)))).toNat else n

/-- The body of the `segment_avgs` loop at index `i`: `none` when the
segment is skipped (`start >= end`), otherwise the emitted record. -/
def segItem (data : List (ℚ × Bool)) (N i : ℕ) : Option Segment :=
  let n := data.length
  let start := segStart n N i
  let e := segEnd n N i
  if start ≥ e then none
  else
    let seg_ms := ((data.map Prod.fst).drop start).take (e - start)
    let seg_fail := ((data.map Prod.snd).drop start).take (e - start)
    let fail_count := (seg_fail.filter id).length
    some
      { idx := i + 1
        startOrd := start + 1
        endOrd := e
        count := seg_ms.length
        avg_ms := seg_ms.sum / (seg_ms.length : ℚ)
        fail_count := fail_count
        fail_rate := 100 * (fail_count : ℚ) / (seg_ms.length : ℚ) }

/-- `segment_avgs(data, num_segments)` from the script: `[]` on empty data,
else the records appended over `i in range(num_segments)`, skipping
segments with `start >= end`. -/
def segment_avgs (data : List (ℚ × Bool)) (num_segments : ℕ) : List Segment :=
  if data = [] then []
  else (List.range num_segments).filterMap (segItem data num_segments)

/-- The slice `[start, end)` of the original series named by an emitted
segment record (its stored ordinals are 1-based inclusive). -/
def segSlice (data : List (ℚ × Bool)) (r : Segment) : List (ℚ × Bool) :=
  (data.drop (r.startOrd - 1)).take (r.endOrd - (r.startOrd - 1))

/-- Observable outcome of one driver run. -/
structure MainResult where
  exitCode : ℕ
  stderrLines : List String
  stdoutHasReport : Bool
  parsedLogs : Bool
  deriving DecidableEq

/-- The driver `main`, as a function of whether each of the two fixed log
files exists: missing first file exits 1, missing second exits 2, each
printing one diagnostic to stderr and doing no parsing; otherwise the full
report runs and the process exits 0.  (The rendered report text itself is
abstracted to a flag.) -/
def mainRun (exists1 exists2 : Bool) : MainResult :=
  if ¬ exists1 then
    { exitCode := 1, stderrLines := ["Missing fastbot1.log"]
      stdoutHasReport := false, parsedLogs := false }
  else if ¬ exists2 then
    { exitCode := 2, stderrLines := ["Missing fastbot2.log"]
      stdoutHasReport := false, parsedLogs := false }
  else
    { exitCode := 0, stderrLines := []
      stdoutHasReport := true, parsedLogs := true }

/-- Python `\s` on ASCII text: the six whitespace characters. -/
def isPySpace (c : Char) : Bool :=
  c == ' ' || c == '\t' || c == '\n' || c == '\r' || c == '\x0b' || c == '\x0c'

/-- Match a literal character sequence at the head of the text, returning
the rest. -/
def dropLit : List Char → List Char → Option (List Char)
  | [], cs => some cs
  | _ :: _, [] => none
  | l :: ls, c :: cs => if c == l then dropLit ls cs else none

/-- Match `\s+` (greedy, maximal run of at least one whitespace
character). Maximal-munch is faithful here because in the script's pattern
every token following `\s+` starts with a non-whitespace character. -/
def dropSpaces1 (cs : List Char) : Option (List Char) :=
  match cs with
  | [] => none
  | c :: rest => if isPySpace c then some (rest.dropWhile isPySpace) else none

/-- Numeric value of a digit string, as `int()` computes it. -/
def digitsVal (ds : List Char) : ℕ :=
  ds.foldl (fun acc c => 10 * acc + (c.toNat - '0'.toNat)) 0

/-- Match `(\d+)` (greedy, maximal run of at least one digit; the following
pattern token `\s+` starts with a non-digit) and return its integer value. -/
def takeDigits1 (cs : List Char) : Option (ℕ × List Char) :=
  if cs.takeWhile Char.isDigit = [] then none
  else some (digitsVal (cs.takeWhile Char.isDigit), cs.dropWhile Char.isDigit)

/-- The optional group `(\s+\(buffer full or fail\))?`: present iff at
least one whitespace character is followed directly by the literal
marker. -/
def matchFailTail (cs : List Char) : Option (List Char) :=
  match dropSpaces1 cs with
  | none => none
  | some r => dropLit "(buffer full or fail)".toList r

/-- The part of the pattern after the bracketed tag and its colon:
`\s+// dumpBinary:\s+(\d+)\s+ms` plus the optional failure marker.
Returns the parsed event and the unconsumed rest of the text. -/
def matchAfterTag (cs : List Char) : Option ((ℕ × Bool) × List Char) := do
  let r2 ← dropSpaces1 cs
  let r3 ← dropLit "// dumpBinary:".toList r2
  let r4 ← dropSpaces1 r3
  let (ms, r5) ← takeDigits1 r4
  let r6 ← dropSpaces1 r5
  let r7 ← dropLit "ms".toList r6
  match matchFailTail r7 with
  | some r8 => some ((ms, true), r8)
  | none => some ((ms, false), r7)

/-- One attempted match of the script's pattern
`\[Fastbot\]:\s+// dumpBinary:\s+(\d+)\s+ms(\s+\(buffer full or fail\))?`
at the head of the text. -/
def tryMatch (cs : List Char) : Option ((ℕ × Bool) × List Char) := do
  let r1 ← dropLit "[Fastbot]:".toList cs
  matchAfterTag r1

/-- Spec-side tag matcher: any nonempty bracketed tag (the claim's reading
of "a bracketed tag"), not just the literal `[Fastbot]`. -/
def dropAnyTag (cs : List Char) : Option (List Char) :=
  match cs with
  | c :: rest =>
      if c = '[' then
        if rest.takeWhile (fun x => !(x == ']')) = [] then none
        else
          match rest.dropWhile (fun x => !(x == ']')) with
          | c2 :: r => if c2 = ']' then some r else none
          | [] => none
      else none
  | [] => none

/-- Spec-side matcher: a bracketed tag (any tag inside brackets), a colon,
then the same tail pattern as the script. Used only to compare against
`tryMatch`. -/
def specTryMatch (cs : List Char) : Option ((ℕ × Bool) × List Char) := do
  let r0 ← dropAnyTag cs
  let r1 ← dropLit ":".toList r0
  matchAfterTag r1

/-- `finditer`-style scan: repeatedly try a match at each position, left to
right; on a match, emit its event and resume after the matched substring.
Structural recursion on a fuel argument (one unit per examined position);
`text.length` fuel always suffices because a successful match consumes at
least one character. -/
def scanWithFuel (m : List Char → Option ((ℕ × Bool) × List Char)) :
    ℕ → List Char → List (ℕ × Bool)
  | 0, _ => []
  | _ + 1, [] => []
  | fuel + 1, c :: rest =>
    match m (c :: rest) with
    | some (ev, r) => ev :: scanWithFuel m fuel r
    | none => scanWithFuel m fuel rest

/-- `parse_log` from the script: all matches of the pattern over the text,
in order, as `(ms, is_fail)` pairs. -/
def parse_log (text : List Char) : List (ℕ × Bool) :=
  scanWithFuel tryMatch text.length text

/-- The claim's version of the extractor, with the tag generalised to any
bracketed tag. Spec-side definition, used only to compare against
`parse_log`. -/
def specParseAnyTag (text : List Char) : List (ℕ × Bool) :=
  scanWithFuel specTryMatch text.length text

/-- Rendered text of one well-formed event line body, used to state the
extractor's correctness on structured inputs. -/
def renderEvent (ds : List Char) (fail : Bool) : List Char :=
  "[Fastbot]: // dumpBinary: ".toList ++ ds ++ " ms".toList ++
    (if fail then " (buffer full or fail)".toList else [])

/-- Text that cannot start a match nor extend a failure marker: it contains
neither `[` nor `(`. -/
def goodJunk (j : List Char) : Prop := ∀ c ∈ j, c ≠ '[' ∧ c ≠ '('

/-- A nonempty all-digit string. -/
def goodDigits (ds : List Char) : Prop := ds ≠ [] ∧ ∀ c ∈ ds, c.isDigit

/-- The rank `k = (n-1)*p/100` of the percentile computation. -/
def pctK (n : ℕ) (p : ℚ) : ℚ := ((n : ℚ) - 1) * p / 100

/-- The lower order-statistic index `f = floor k` of the percentile
computation, as a natural number. -/
def pctF (n : ℕ) (p : ℚ) : ℕ := ⌊pctK n p⌋.toNat

/-- The upper order-statistic index `c = min (f+1) (n-1)` of the percentile
computation, as a natural number. -/
def pctC (n : ℕ) (p : ℚ) : ℕ := min (pctF n p + 1) (n - 1)

/-- A two-event sample series used to exercise the theorems on concrete
input. -/
def exPair : List (ℚ × Bool) := [(1, false), (2, true)]

/-- A two-event sample series with distinct durations. -/
def exSeries : List (ℚ × Bool) := [(10, false), (20, true)]

/-- The summary record `stats` computes for `exSeries`. -/
def exStats : SummaryStats :=
  { name := "ex", n := 2, min := 10, max := 20, mean := 15, p50 := 15,
    p90 := 19, p95 := 39/2, p99 := 199/10, fails := 1, fail_rate := 50 }

/-- A sample series whose durations are all equal. -/
def exConstSeries : List (ℚ × Bool) := [(5, true), (5, false)]

/-- The summary record `stats` computes for `exConstSeries`. -/
def exConstStats : SummaryStats :=
  { name := "ex", n := 2, min := 5, max := 5, mean := 5, p50 := 5,
    p90 := 5, p95 := 5, p99 := 5, fails := 1, fail_rate := 50 }

end DumpBinary

namespace DumpBinary

theorem pyInt_of_nonneg {q : ℚ} (h : 0 ≤ q) : pyInt q = ⌊q⌋ := if_pos h

theorem length_pos_of_ne_nil {α : Type} {l : List α} (h : l ≠ []) :
    1 ≤ l.length := List.length_pos.mpr h

theorem sorted_getD_le {l : List ℚ} (hs : l.Sorted (· ≤ ·)) {i j : ℕ}
    (hij : i ≤ j) (hj : j < l.length) : l.getD i 0 ≤ l.getD j 0 := by
  have hi : i < l.length := lt_of_le_of_lt hij hj
  rw [List.getD_eq_getElem l 0 hi, List.getD_eq_getElem l 0 hj]
  have h := @List.Sorted.rel_get_of_le ℚ (· ≤ ·) _ l hs ⟨i, hi⟩ ⟨j, hj⟩
    (by simpa using hij)
  simpa using h

theorem getD_mem_of_lt {α : Type} [Inhabited α] {l : List α} {i : ℕ}
    (h : i < l.length) (d : α) : l.getD i d ∈ l := by
  rw [List.getD_eq_getElem l d h]
  exact List.getElem_mem h

theorem pctK_nonneg {n : ℕ} (hn : 1 ≤ n) {p : ℚ} (hp : 0 ≤ p) :
    0 ≤ pctK n p := by
  have h1 : (1 : ℚ) ≤ (n : ℚ) := by exact_mod_cast hn
  have : 0 ≤ (n : ℚ) - 1 := by linarith
  have := mul_nonneg this hp
  unfold pctK
  positivity

theorem pctK_le {n : ℕ} {p : ℚ} (hp : p ≤ 100) (hp0 : 0 ≤ p) (hn : 1 ≤ n) :
    pctK n p ≤ (n : ℚ) - 1 := by
  have h1 : (1 : ℚ) ≤ (n : ℚ) := by exact_mod_cast hn
  have hnn : 0 ≤ (n : ℚ) - 1 := by linarith
  unfold pctK
  rw [div_le_iff₀ (by norm_num : (0:ℚ) < 100)]
  nlinarith

theorem pctK_mono {n : ℕ} (hn : 1 ≤ n) {p q : ℚ} (hpq : p ≤ q) :
    pctK n p ≤ pctK n q := by
  have h1 : (1 : ℚ) ≤ (n : ℚ) := by exact_mod_cast hn
  have hnn : 0 ≤ (n : ℚ) - 1 := by linarith
  unfold pctK
  have := mul_le_mul_of_nonneg_left hpq hnn
  linarith

theorem floor_pctK_nonneg {n : ℕ} (hn : 1 ≤ n) {p : ℚ} (hp : 0 ≤ p) :
    0 ≤ ⌊pctK n p⌋ :=
  Int.floor_nonneg.mpr (pctK_nonneg hn hp)

theorem floor_pctK_le {n : ℕ} (hn : 1 ≤ n) {p : ℚ} (hp0 : 0 ≤ p)
    (hp1 : p ≤ 100) : ⌊pctK n p⌋ ≤ (n : ℤ) - 1 := by
  have h := Int.floor_le_floor (α := ℚ) (pctK_le hp1 hp0 hn)
  have h2 : ((n : ℚ) - 1) = (((n : ℤ) - 1 : ℤ) : ℚ) := by push_cast; ring
  rwa [h2, Int.floor_intCast] at h

theorem pctF_cast {n : ℕ} (hn : 1 ≤ n) {p : ℚ} (hp : 0 ≤ p) :
    ((pctF n p : ℕ) : ℚ) = (⌊pctK n p⌋ : ℚ) := by
  have h := floor_pctK_nonneg hn hp
  unfold pctF
  exact_mod_cast Int.toNat_of_nonneg h

theorem pctF_le {n : ℕ} (hn : 1 ≤ n) {p : ℚ} (hp0 : 0 ≤ p) (hp1 : p ≤ 100) :
    pctF n p ≤ n - 1 := by
  have h := floor_pctK_le hn hp0 hp1
  unfold pctF
  omega

theorem pctF_le_pctK {n : ℕ} (hn : 1 ≤ n) {p : ℚ} (hp : 0 ≤ p) :
    ((pctF n p : ℕ) : ℚ) ≤ pctK n p := by
  rw [pctF_cast hn hp]
  exact Int.floor_le _

theorem pctK_lt_pctF_add_one {n : ℕ} (hn : 1 ≤ n) {p : ℚ} (hp : 0 ≤ p) :
    pctK n p < (pctF n p : ℚ) + 1 := by
  rw [pctF_cast hn hp]
  exact Int.lt_floor_add_one _

theorem pctF_mono {n : ℕ} (hn : 1 ≤ n) {p q : ℚ} (hpq : p ≤ q) :
    pctF n p ≤ pctF n q := by
  have h := Int.floor_le_floor (α := ℚ) (pctK_mono hn hpq)
  unfold pctF
  omega

theorem pctF_le_pctC {n : ℕ} (hn : 1 ≤ n) {p : ℚ} (hp0 : 0 ≤ p)
    (hp1 : p ≤ 100) : pctF n p ≤ pctC n p := by
  have h := pctF_le hn hp0 hp1
  unfold pctC
  omega

theorem pctC_lt {n : ℕ} (hn : 1 ≤ n) (p : ℚ) : pctC n p < n := by
  unfold pctC
  omega

/-- Uniform closed form of `percentile`: with `f = pctF`, `c = pctC` and
`k = pctK`, the result is always `s[f] + (k - f) * (s[c] - s[f])` (in the
skipped-interpolation branch the second summand vanishes because
`c = f`). -/
theorem percentile_formula (s : List ℚ) (hne : s ≠ []) {p : ℚ}
    (hp0 : 0 ≤ p) (hp1 : p ≤ 100) :
    percentile s p =
      s.getD (pctF s.length p) 0 +
        (pctK s.length p - (pctF s.length p : ℚ)) *
          (s.getD (pctC s.length p) 0 - s.getD (pctF s.length p) 0) := by
  have hn : 1 ≤ s.length := length_pos_of_ne_nil hne
  have hk0 : (0:ℚ) ≤ ((s.length : ℚ) - 1) * p / 100 := pctK_nonneg hn hp0
  have hf0 : (0:ℤ) ≤ ⌊((s.length : ℚ) - 1) * p / 100⌋ := Int.floor_nonneg.mpr hk0
  have hfle : ⌊((s.length : ℚ) - 1) * p / 100⌋ ≤ (s.length : ℤ) - 1 :=
    floor_pctK_le hn hp0 hp1
  have hcast : ((⌊((s.length : ℚ) - 1) * p / 100⌋.toNat : ℕ) : ℚ)
      = ((⌊((s.length : ℚ) - 1) * p / 100⌋ : ℤ) : ℚ) := by
    exact_mod_cast Int.toNat_of_nonneg hf0
  simp only [percentile, if_neg hne, pctF, pctC, pctK]
  rw [pyInt_of_nonneg hk0, hcast]
  by_cases hc : ⌊((s.length : ℚ) - 1) * p / 100⌋ + 1 < (s.length : ℤ)
  · rw [if_pos hc, if_pos (by omega :
      ⌊((s.length : ℚ) - 1) * p / 100⌋ + 1 > ⌊((s.length : ℚ) - 1) * p / 100⌋)]
    have hcnat : (⌊((s.length : ℚ) - 1) * p / 100⌋ + 1).toNat
        = min (⌊((s.length : ℚ) - 1) * p / 100⌋.toNat + 1) (s.length - 1) := by
      omega
    rw [hcnat]
  · rw [if_neg hc, if_neg (by omega :
      ¬ ⌊((s.length : ℚ) - 1) * p / 100⌋ > ⌊((s.length : ℚ) - 1) * p / 100⌋)]
    have hceq : min (⌊((s.length : ℚ) - 1) * p / 100⌋.toNat + 1) (s.length - 1)
        = ⌊((s.length : ℚ) - 1) * p / 100⌋.toNat := by
      omega
    rw [hceq, sub_self, mul_zero, add_zero]

/-- The specification's percentile formula has the same closed form. -/
theorem percentileSpec_formula (s : List ℚ) (hne : s ≠ []) {p : ℚ}
    (hp0 : 0 ≤ p) (hp1 : p ≤ 100) :
    percentileSpec s p =
      s.getD (pctF s.length p) 0 +
        (pctK s.length p - (pctF s.length p : ℚ)) *
          (s.getD (pctC s.length p) 0 - s.getD (pctF s.length p) 0) := by
  have hn : 1 ≤ s.length := length_pos_of_ne_nil hne
  have hk0 : (0:ℚ) ≤ ((s.length : ℚ) - 1) * p / 100 := pctK_nonneg hn hp0
  have hf0 : (0:ℤ) ≤ ⌊((s.length : ℚ) - 1) * p / 100⌋ := Int.floor_nonneg.mpr hk0
  have hfle : ⌊((s.length : ℚ) - 1) * p / 100⌋ ≤ (s.length : ℤ) - 1 :=
    floor_pctK_le hn hp0 hp1
  have hcast : ((⌊((s.length : ℚ) - 1) * p / 100⌋.toNat : ℕ) : ℚ)
      = ((⌊((s.length : ℚ) - 1) * p / 100⌋ : ℤ) : ℚ) := by
    exact_mod_cast Int.toNat_of_nonneg hf0
  simp only [percentileSpec, pctF, pctC, pctK]
  rw [hcast]
  by_cases hc : ⌊((s.length : ℚ) - 1) * p / 100⌋ < (s.length : ℤ) - 1
  · rw [if_pos (by omega :
      min (⌊((s.length : ℚ) - 1) * p / 100⌋ + 1) ((s.length : ℤ) - 1) >
        ⌊((s.length : ℚ) - 1) * p / 100⌋)]
    have hcnat : (min (⌊((s.length : ℚ) - 1) * p / 100⌋ + 1) ((s.length : ℤ) - 1)).toNat
        = min (⌊((s.length : ℚ) - 1) * p / 100⌋.toNat + 1) (s.length - 1) := by
      omega
    rw [hcnat]
  · rw [if_neg (by omega :
      ¬ min (⌊((s.length : ℚ) - 1) * p / 100⌋ + 1) ((s.length : ℤ) - 1) >
        ⌊((s.length : ℚ) - 1) * p / 100⌋)]
    have hceq : min (⌊((s.length : ℚ) - 1) * p / 100⌋.toNat + 1) (s.length - 1)
        = ⌊((s.length : ℚ) - 1) * p / 100⌋.toNat := by
      omega
    rw [hceq, sub_self, mul_zero, add_zero]

theorem percentile_ge_head (s : List ℚ) (hs : s.Sorted (· ≤ ·))
    (hne : s ≠ []) {p : ℚ} (hp0 : 0 ≤ p) (hp1 : p ≤ 100) :
    s.getD 0 0 ≤ percentile s p := by
  have hn : 1 ≤ s.length := length_pos_of_ne_nil hne
  rw [percentile_formula s hne hp0 hp1]
  have hflt : pctF s.length p < s.length := by
    have := pctF_le hn hp0 hp1; omega
  have hclt : pctC s.length p < s.length := pctC_lt hn p
  have h1 : s.getD 0 0 ≤ s.getD (pctF s.length p) 0 :=
    sorted_getD_le hs (Nat.zero_le _) hflt
  have h2 : s.getD (pctF s.length p) 0 ≤ s.getD (pctC s.length p) 0 :=
    sorted_getD_le hs (pctF_le_pctC hn hp0 hp1) hclt
  have ht : 0 ≤ pctK s.length p - (pctF s.length p : ℚ) := by
    have := pctF_le_pctK hn hp0; linarith
  nlinarith

theorem percentile_le_last (s : List ℚ) (hs : s.Sorted (· ≤ ·))
    (hne : s ≠ []) {p : ℚ} (hp0 : 0 ≤ p) (hp1 : p ≤ 100) :
    percentile s p ≤ s.getD (s.length - 1) 0 := by
  have hn : 1 ≤ s.length := length_pos_of_ne_nil hne
  rw [percentile_formula s hne hp0 hp1]
  have hflt : pctF s.length p < s.length := by
    have := pctF_le hn hp0 hp1; omega
  have hclt : pctC s.length p < s.length := pctC_lt hn p
  have h2 : s.getD (pctF s.length p) 0 ≤ s.getD (pctC s.length p) 0 :=
    sorted_getD_le hs (pctF_le_pctC hn hp0 hp1) hclt
  have h3 : s.getD (pctC s.length p) 0 ≤ s.getD (s.length - 1) 0 :=
    sorted_getD_le hs (by unfold pctC; omega) (by omega)
  have ht : 0 ≤ pctK s.length p - (pctF s.length p : ℚ) := by
    have := pctF_le_pctK hn hp0; linarith
  have ht1 : pctK s.length p - (pctF s.length p : ℚ) ≤ 1 := by
    have := pctK_lt_pctF_add_one hn hp0; linarith
  nlinarith

theorem percentile_mono (s : List ℚ) (hs : s.Sorted (· ≤ ·))
    (hne : s ≠ []) {p q : ℚ} (hp0 : 0 ≤ p) (hpq : p ≤ q) (hq : q ≤ 100) :
    percentile s p ≤ percentile s q := by
  have hn : 1 ≤ s.length := length_pos_of_ne_nil hne
  have hq0 : 0 ≤ q := le_trans hp0 hpq
  have hp1 : p ≤ 100 := le_trans hpq hq
  rw [percentile_formula s hne hp0 hp1, percentile_formula s hne hq0 hq]
  have hfp : pctF s.length p ≤ s.length - 1 := pctF_le hn hp0 hp1
  have hfq : pctF s.length q ≤ s.length - 1 := pctF_le hn hq0 hq
  have hcp : pctC s.length p < s.length := pctC_lt hn p
  have hcq : pctC s.length q < s.length := pctC_lt hn q
  have hflt : pctF s.length p < s.length := by omega
  have hfqlt : pctF s.length q < s.length := by omega
  have hff : pctF s.length p ≤ pctF s.length q := pctF_mono hn hpq
  have htp0 : 0 ≤ pctK s.length p - (pctF s.length p : ℚ) := by
    have := pctF_le_pctK hn hp0; linarith
  have htq0 : 0 ≤ pctK s.length q - (pctF s.length q : ℚ) := by
    have := pctF_le_pctK hn hq0; linarith
  have hvw_p : s.getD (pctF s.length p) 0 ≤ s.getD (pctC s.length p) 0 :=
    sorted_getD_le hs (pctF_le_pctC hn hp0 hp1) hcp
  have hvw_q : s.getD (pctF s.length q) 0 ≤ s.getD (pctC s.length q) 0 :=
    sorted_getD_le hs (pctF_le_pctC hn hq0 hq) hcq
  rcases eq_or_lt_of_le hff with heq | hlt
  · -- same lower index, hence same upper index: interpolation is monotone in k
    have hkk : pctK s.length p ≤ pctK s.length q := pctK_mono hn hpq
    rw [heq]
    have hceq : pctC s.length p = pctC s.length q := by unfold pctC; rw [heq]
    rw [hceq]
    nlinarith [hvw_q, hkk]
  · -- strictly larger lower index: chain through s[f_p + 1] ≤ s[f_q]
    have hcp_eq : pctC s.length p = pctF s.length p + 1 := by
      unfold pctC; omega
    have htp1 : pctK s.length p - (pctF s.length p : ℚ) ≤ 1 := by
      have := pctK_lt_pctF_add_one hn hp0; linarith
    have h1 : s.getD (pctF s.length p) 0 +
        (pctK s.length p - (pctF s.length p : ℚ)) *
          (s.getD (pctC s.length p) 0 - s.getD (pctF s.length p) 0)
        ≤ s.getD (pctC s.length p) 0 := by
      nlinarith [hvw_p]
    have h2 : s.getD (pctC s.length p) 0 ≤ s.getD (pctF s.length q) 0 := by
      apply sorted_getD_le hs _ hfqlt
      rw [hcp_eq]; omega
    have h3 : s.getD (pctF s.length q) 0 ≤ s.getD (pctF s.length q) 0 +
        (pctK s.length q - (pctF s.length q : ℚ)) *
          (s.getD (pctC s.length q) 0 - s.getD (pctF s.length q) 0) := by
      nlinarith [hvw_q]
    linarith

theorem percentile_const {s : List ℚ} {v : ℚ} (hall : ∀ x ∈ s, x = v)
    (hne : s ≠ []) {p : ℚ} (hp0 : 0 ≤ p) (hp1 : p ≤ 100) :
    percentile s p = v := by
  have hn : 1 ≤ s.length := length_pos_of_ne_nil hne
  rw [percentile_formula s hne hp0 hp1]
  have hflt : pctF s.length p < s.length := by
    have := pctF_le hn hp0 hp1; omega
  have hclt : pctC s.length p < s.length := pctC_lt hn p
  have h1 : s.getD (pctF s.length p) 0 = v := hall _ (getD_mem_of_lt hflt 0)
  have h2 : s.getD (pctC s.length p) 0 = v := hall _ (getD_mem_of_lt hclt 0)
  rw [h1, h2, sub_self, mul_zero, add_zero]

theorem foldl_min_le_init (l : List ℚ) (a : ℚ) : l.foldl min a ≤ a := by
  induction l generalizing a with
  | nil => simp
  | cons x xs ih =>
      simp only [List.foldl_cons]
      exact le_trans (ih (min a x)) (min_le_left a x)

theorem foldl_min_le_mem {l : List ℚ} {b : ℚ} (hb : b ∈ l) (a : ℚ) :
    l.foldl min a ≤ b := by
  induction l generalizing a with
  | nil => cases hb
  | cons x xs ih =>
      simp only [List.foldl_cons]
      rcases List.mem_cons.mp hb with h | h
      · subst h
        exact le_trans (foldl_min_le_init xs (min a b)) (min_le_right a b)
      · exact ih h (min a x)

theorem foldl_min_mem (l : List ℚ) (a : ℚ) :
    l.foldl min a = a ∨ l.foldl min a ∈ l := by
  induction l generalizing a with
  | nil => exact Or.inl rfl
  | cons x xs ih =>
      simp only [List.foldl_cons]
      rcases ih (min a x) with h | h
      · rcases min_choice a x with hm | hm
        · exact Or.inl (h.trans hm)
        · exact Or.inr (List.mem_cons.mpr (Or.inl (h.trans hm)))
      · exact Or.inr (List.mem_cons.mpr (Or.inr h))

theorem le_foldl_max_init (l : List ℚ) (a : ℚ) : a ≤ l.foldl max a := by
  induction l generalizing a with
  | nil => simp
  | cons x xs ih =>
      simp only [List.foldl_cons]
      exact le_trans (le_max_left a x) (ih (max a x))

theorem le_foldl_max_mem {l : List ℚ} {b : ℚ} (hb : b ∈ l) (a : ℚ) :
    b ≤ l.foldl max a := by
  induction l generalizing a with
  | nil => cases hb
  | cons x xs ih =>
      simp only [List.foldl_cons]
      rcases List.mem_cons.mp hb with h | h
      · subst h
        exact le_trans (le_max_right a b) (le_foldl_max_init xs (max a b))
      · exact ih h (max a x)

theorem foldl_max_mem (l : List ℚ) (a : ℚ) :
    l.foldl max a = a ∨ l.foldl max a ∈ l := by
  induction l generalizing a with
  | nil => exact Or.inl rfl
  | cons x xs ih =>
      simp only [List.foldl_cons]
      rcases ih (max a x) with h | h
      · rcases max_choice a x with hm | hm
        · exact Or.inl (h.trans hm)
        · exact Or.inr (List.mem_cons.mpr (Or.inl (h.trans hm)))
      · exact Or.inr (List.mem_cons.mpr (Or.inr h))

theorem pyMin_le_mem {l : List ℚ} {b : ℚ} (hb : b ∈ l) : pyMin l ≤ b := by
  match l, hb with
  | x :: xs, hb =>
      simp only [pyMin]
      rcases List.mem_cons.mp hb with h | h
      · subst h; exact foldl_min_le_init xs b
      · exact foldl_min_le_mem h x

theorem mem_le_pyMax {l : List ℚ} {b : ℚ} (hb : b ∈ l) : b ≤ pyMax l := by
  match l, hb with
  | x :: xs, hb =>
      simp only [pyMax]
      rcases List.mem_cons.mp hb with h | h
      · subst h; exact le_foldl_max_init xs b
      · exact le_foldl_max_mem h x

theorem pyMin_mem {l : List ℚ} (hne : l ≠ []) : pyMin l ∈ l := by
  match l, hne with
  | x :: xs, _ =>
      simp only [pyMin]
      rcases foldl_min_mem xs x with h | h
      · exact List.mem_cons.mpr (Or.inl h)
      · exact List.mem_cons.mpr (Or.inr h)

theorem pyMax_mem {l : List ℚ} (hne : l ≠ []) : pyMax l ∈ l := by
  match l, hne with
  | x :: xs, _ =>
      simp only [pyMax]
      rcases foldl_max_mem xs x with h | h
      · exact List.mem_cons.mpr (Or.inl h)
      · exact List.mem_cons.mpr (Or.inr h)

theorem map_fst_ne_nil {data : List (ℚ × Bool)} (hne : data ≠ []) :
    data.map Prod.fst ≠ [] := by
  intro h
  exact hne (List.map_eq_nil_iff.mp h)

theorem insertionSort_ne_nil {l : List ℚ} (hne : l ≠ []) :
    List.insertionSort (· ≤ ·) l ≠ [] := by
  intro h
  have := (List.perm_insertionSort (· ≤ ·) l).length_eq
  rw [h] at this
  exact hne (List.eq_nil_of_length_eq_zero this.symm)

/-- C3: for every non-empty event series, the summary record returned by
`stats` satisfies `fail_count <= count` and
`min <= p50 <= p90 <= p95 <= p99 <= max`. -/
theorem stats_invariants (data : List (ℚ × Bool)) (name : String)
    (hne : data ≠ []) (st : SummaryStats) (hst : stats data name = some st) :
    st.fails ≤ st.n ∧ st.min ≤ st.p50 ∧ st.p50 ≤ st.p90 ∧ st.p90 ≤ st.p95 ∧
      st.p95 ≤ st.p99 ∧ st.p99 ≤ st.max := by
  simp only [stats, if_neg hne, Option.some.injEq] at hst
  subst hst
  have hs : (List.insertionSort (· ≤ ·) (data.map Prod.fst)).Sorted (· ≤ ·) :=
    List.sorted_insertionSort _ _
  have hperm : (List.insertionSort (· ≤ ·) (data.map Prod.fst)).Perm
      (data.map Prod.fst) := List.perm_insertionSort _ _
  have hmsne : data.map Prod.fst ≠ [] := map_fst_ne_nil hne
  have hsne : List.insertionSort (· ≤ ·) (data.map Prod.fst) ≠ [] :=
    insertionSort_ne_nil hmsne
  have hslen : 1 ≤ (List.insertionSort (· ≤ ·) (data.map Prod.fst)).length :=
    length_pos_of_ne_nil hsne
  refine ⟨?_, ?_, ?_, ?_, ?_, ?_⟩
  · simpa using le_trans (List.length_filter_le _ data)
      (le_of_eq (List.length_map data Prod.fst).symm)
  · have hmem : (List.insertionSort (· ≤ ·) (data.map Prod.fst)).getD 0 0
        ∈ data.map Prod.fst :=
      hperm.mem_iff.mp (getD_mem_of_lt (by omega) 0)
    exact le_trans (pyMin_le_mem hmem)
      (percentile_ge_head _ hs hsne (by norm_num) (by norm_num))
  · exact percentile_mono _ hs hsne (by norm_num) (by norm_num) (by norm_num)
  · exact percentile_mono _ hs hsne (by norm_num) (by norm_num) (by norm_num)
  · exact percentile_mono _ hs hsne (by norm_num) (by norm_num) (by norm_num)
  · have hmem : (List.insertionSort (· ≤ ·) (data.map Prod.fst)).getD
        ((List.insertionSort (· ≤ ·) (data.map Prod.fst)).length - 1) 0
        ∈ data.map Prod.fst :=
      hperm.mem_iff.mp (getD_mem_of_lt (by omega) 0)
    exact le_trans (percentile_le_last _ hs hsne (by norm_num) (by norm_num))
      (mem_le_pyMax hmem)

/-- C8: for every non-empty event series in which all durations equal the
same value `v`, `stats` returns `min = max = mean = p50 = p90 = p95 = p99 = v`. -/
theorem stats_all_equal (data : List (ℚ × Bool)) (v : ℚ) (name : String)
    (hne : data ≠ []) (hall : ∀ x ∈ data, x.1 = v) (st : SummaryStats)
    (hst : stats data name = some st) :
    st.min = v ∧ st.max = v ∧ st.mean = v ∧ st.p50 = v ∧ st.p90 = v ∧
      st.p95 = v ∧ st.p99 = v := by
  simp only [stats, if_neg hne, Option.some.injEq] at hst
  subst hst
  have hallms : ∀ x ∈ data.map Prod.fst, x = v := by
    intro x hx
    rcases List.mem_map.mp hx with ⟨y, hy, hxy⟩
    exact hxy ▸ hall y hy
  have hperm : (List.insertionSort (· ≤ ·) (data.map Prod.fst)).Perm
      (data.map Prod.fst) := List.perm_insertionSort _ _
  have halls : ∀ x ∈ List.insertionSort (· ≤ ·) (data.map Prod.fst), x = v := by
    intro x hx
    exact hallms x (hperm.mem_iff.mp hx)
  have hmsne : data.map Prod.fst ≠ [] := map_fst_ne_nil hne
  have hsne : List.insertionSort (· ≤ ·) (data.map Prod.fst) ≠ [] :=
    insertionSort_ne_nil hmsne
  have hlen : 1 ≤ (data.map Prod.fst).length := length_pos_of_ne_nil hmsne
  refine ⟨?_, ?_, ?_, ?_, ?_, ?_, ?_⟩
  · exact hallms _ (pyMin_mem hmsne)
  · exact hallms _ (pyMax_mem hmsne)
  · show (data.map Prod.fst).sum / ((data.map Prod.fst).length : ℚ) = v
    rw [List.sum_eq_card_nsmul (data.map Prod.fst) v hallms, nsmul_eq_mul,
      List.length_map]
    have hnz : ((data.length : ℚ)) ≠ 0 := by
      have h0 : data.length ≠ 0 := by
        rw [← List.length_map data Prod.fst]; omega
      exact_mod_cast h0
    field_simp
  · exact percentile_const halls hsne (by norm_num) (by norm_num)
  · exact percentile_const halls hsne (by norm_num) (by norm_num)
  · exact percentile_const halls hsne (by norm_num) (by norm_num)
  · exact percentile_const halls hsne (by norm_num) (by norm_num)

theorem floor_nat_div_nat (a b : ℕ) :
    (⌊((a : ℚ)) / ((b : ℚ))⌋).toNat = a / b := by
  rw [Int.floor_toNat, Nat.floor_div_nat, Nat.floor_natCast]

theorem segStart_eq (n N i : ℕ) : segStart n N i = i * n / N := by
  have hx : ((i : ℚ)) * ((n : ℚ) / (N : ℚ)) = ((i * n : ℕ) : ℚ) / ((N : ℕ) : ℚ) := by
    push_cast
    ring
  have h0 : (0:ℚ) ≤ ((i * n : ℕ) : ℚ) / ((N : ℕ) : ℚ) := by positivity
  unfold segStart
  rw [hx, pyInt_of_nonneg h0, floor_nat_div_nat]

theorem segEnd_eq {N : ℕ} (hN : 0 < N) {i : ℕ} (hi : i < N) (n : ℕ) :
    segEnd n N i = (i + 1) * n / N := by
  unfold segEnd
  by_cases h : i < N - 1
  · rw [if_pos h]
    have hx : (((i : ℚ)) + 1) * ((n : ℚ) / (N : ℚ))
        = (((i + 1) * n : ℕ) : ℚ) / ((N : ℕ) : ℚ) := by
      push_cast
      ring
    have h0 : (0:ℚ) ≤ (((i + 1) * n : ℕ) : ℚ) / ((N : ℕ) : ℚ) := by positivity
    rw [hx, pyInt_of_nonneg h0, floor_nat_div_nat]
  · rw [if_neg h]
    have hiN : i + 1 = N := by omega
    rw [hiN, Nat.mul_div_cancel_left n hN]

theorem segB_mono (n N : ℕ) {i j : ℕ} (hij : i ≤ j) :
    i * n / N ≤ j * n / N :=
  Nat.div_le_div_right (Nat.mul_le_mul_right n hij)

theorem segB_le_len {N : ℕ} (hN : 0 < N) {i : ℕ} (hi : i ≤ N) (n : ℕ) :
    i * n / N ≤ n := by
  have h := segB_mono n N hi
  rwa [Nat.mul_div_cancel_left n hN] at h

theorem div_add_lt_succ (a n N : ℕ) (hN : 0 < N) (hn : n < N) :
    (a + n) / N ≤ a / N + 1 := by
  have hmod := Nat.div_add_mod a N
  have hmlt : a % N < N := Nat.mod_lt a hN
  have hlt : a + n < (a / N + 2) * N := by
    have : (a / N + 2) * N = N * (a / N) + N + N := by ring
    omega
  have := (Nat.div_lt_iff_lt_mul hN).mpr hlt
  omega

theorem segItem_none_iff (data : List (ℚ × Bool)) {N : ℕ} (hN : 0 < N)
    {i : ℕ} (hi : i < N) :
    segItem data N i = none ↔
      (i + 1) * data.length / N ≤ i * data.length / N := by
  simp only [segItem]
  rw [segStart_eq, segEnd_eq hN hi]
  by_cases h : i * data.length / N ≥ (i + 1) * data.length / N
  · rw [if_pos h]
    simp [h]
  · rw [if_neg h]
    simp [h]

theorem segItem_fields (data : List (ℚ × Bool)) {N : ℕ} (hN : 0 < N)
    {i : ℕ} (hi : i < N) {r : Segment} (h : segItem data N i = some r) :
    r.idx = i + 1 ∧ r.startOrd = i * data.length / N + 1 ∧
      r.endOrd = (i + 1) * data.length / N ∧
      r.count = (i + 1) * data.length / N - i * data.length / N ∧
      i * data.length / N < (i + 1) * data.length / N := by
  simp only [segItem] at h
  rw [segStart_eq, segEnd_eq hN hi] at h
  by_cases hge : i * data.length / N ≥ (i + 1) * data.length / N
  · rw [if_pos hge] at h
    cases h
  · rw [if_neg hge] at h
    have hcnt : (((data.map Prod.fst).drop (i * data.length / N)).take
        ((i + 1) * data.length / N - i * data.length / N)).length
        = (i + 1) * data.length / N - i * data.length / N := by
      rw [List.length_take, List.length_drop, List.length_map]
      have hle : (i + 1) * data.length / N ≤ data.length :=
        segB_le_len hN (by omega) data.length
      omega
    simp only [Option.some.injEq] at h
    subst h
    refine ⟨rfl, rfl, rfl, ?_, by omega⟩
    exact hcnt

theorem segment_avgs_mem (data : List (ℚ × Bool)) (N : ℕ) {r : Segment}
    (h : r ∈ segment_avgs data N) :
    ∃ i, i < N ∧ segItem data N i = some r := by
  unfold segment_avgs at h
  by_cases hd : data = []
  · rw [if_pos hd] at h
    cases h
  · rw [if_neg hd] at h
    rcases List.mem_filterMap.mp h with ⟨i, hi, hsome⟩
    exact ⟨i, List.mem_range.mp hi, hsome⟩

theorem seg_prefix_aux (data : List (ℚ × Bool)) {N : ℕ} (hN : 0 < N) :
    ∀ k, k ≤ N →
      ((((List.range k).filterMap (segItem data N)).map (segSlice data)).flatten
          = data.take (k * data.length / N))
        ∧ ((((List.range k).filterMap (segItem data N)).map Segment.count).sum
          = k * data.length / N) := by
  intro k
  induction k with
  | zero => intro _; simp
  | succ k ih =>
      intro hk1
      have hk : k ≤ N := by omega
      have hkN : k < N := by omega
      obtain ⟨ih1, ih2⟩ := ih hk
      rw [List.range_succ, List.filterMap_append, List.map_append,
        List.map_append, List.flatten_append, List.sum_append]
      have hmono : k * data.length / N ≤ (k + 1) * data.length / N :=
        segB_mono data.length N (by omega)
      cases h : segItem data N k with
      | none =>
          have heq : (k + 1) * data.length / N = k * data.length / N := by
            have := (segItem_none_iff data hN hkN).mp h
            omega
          simp only [List.filterMap_cons, h, List.filterMap_nil, List.map_nil,
            List.flatten_nil, List.append_nil, List.sum_nil, Nat.add_zero]
          rw [heq]
          exact ⟨ih1, ih2⟩
      | some r =>
          obtain ⟨hidx, hso, heo, hcnt, hlt⟩ := segItem_fields data hN hkN h
          have hslice : segSlice data r =
              (data.drop (k * data.length / N)).take
                ((k + 1) * data.length / N - k * data.length / N) := by
            unfold segSlice
            rw [hso, heo]
            simp
          simp only [List.filterMap_cons, h, List.filterMap_nil, List.map_cons,
            List.map_nil, List.flatten_cons, List.flatten_nil, List.append_nil,
            List.sum_cons, List.sum_nil, Nat.add_zero]
          constructor
          · rw [ih1, hslice, ← List.take_add]
            congr 1
            omega
          · rw [ih2, hcnt]
            omega

theorem seg_flatten_sum (data : List (ℚ × Bool)) {N : ℕ} (hN : 0 < N) :
    ((segment_avgs data N).map (segSlice data)).flatten = data ∧
      ((segment_avgs data N).map Segment.count).sum = data.length := by
  by_cases hd : data = []
  · subst hd
    simp [segment_avgs]
  · have h := seg_prefix_aux data hN N le_rfl
    rw [Nat.mul_div_cancel_left data.length hN, List.take_length] at h
    simpa only [segment_avgs, if_neg hd] using h

/-- C1: for every event series and `num_segments >= 1`, concatenating the
slices `[start, end)` of the emitted segments of `segment_avgs`, in emission
order, reconstructs the original series exactly, and the emitted counts sum
to the series length. -/
theorem segment_avgs_partition (data : List (ℚ × Bool)) (N : ℕ)
    (hN : 1 ≤ N) :
    ((segment_avgs data N).map (segSlice data)).flatten = data ∧
      ((segment_avgs data N).map Segment.count).sum = data.length :=
  seg_flatten_sum data hN

/-- C9: for every event series and `num_segments >= 1`, the computed start
of a segment never exceeds its computed end, every emitted segment contains
at least one event (so the per-segment divisions are by a positive count),
and skipped segments are exactly the zero-length ones. -/
theorem segment_avgs_safety (data : List (ℚ × Bool)) (N : ℕ) (hN : 1 ≤ N) :
    (∀ i < N, segStart data.length N i ≤ segEnd data.length N i) ∧
      (∀ r ∈ segment_avgs data N, 1 ≤ r.count) ∧
      (∀ i < N, segItem data N i = none ↔
        segStart data.length N i = segEnd data.length N i) := by
  refine ⟨?_, ?_, ?_⟩
  · intro i hi
    rw [segStart_eq, segEnd_eq hN hi]
    exact segB_mono data.length N (by omega)
  · intro r hr
    rcases segment_avgs_mem data N hr with ⟨i, hi, hsome⟩
    obtain ⟨_, _, _, hcnt, hlt⟩ := segItem_fields data hN hi hsome
    omega
  · intro i hi
    rw [segStart_eq, segEnd_eq hN hi, segItem_none_iff data hN hi]
    have := segB_mono data.length N (show i ≤ i + 1 by omega)
    omega

theorem sum_counts_eq_length (l : List Segment)
    (h : ∀ r ∈ l, r.count = 1) : (l.map Segment.count).sum = l.length := by
  induction l with
  | nil => simp
  | cons x xs ih =>
      simp only [List.map_cons, List.sum_cons, List.length_cons,
        h x (List.mem_cons_self x xs)]
      rw [ih (fun r hr => h r (List.mem_cons_of_mem x hr))]
      omega

/-- C6: for every non-empty series of length `n` and every
`num_segments > n`, `segment_avgs` emits exactly `n` segments, each of
size 1; zero-length segments are skipped, never emitted. -/
theorem segment_avgs_small_series (data : List (ℚ × Bool)) (N : ℕ)
    (hne : data ≠ []) (hlt : data.length < N) :
    (segment_avgs data N).length = data.length ∧
      ∀ r ∈ segment_avgs data N, r.count = 1 := by
  have hN : 0 < N := by omega
  have hone : ∀ r ∈ segment_avgs data N, r.count = 1 := by
    intro r hr
    rcases segment_avgs_mem data N hr with ⟨i, hi, hsome⟩
    obtain ⟨_, _, _, hcnt, hblt⟩ := segItem_fields data hN hi hsome
    have hub : (i + 1) * data.length / N ≤ i * data.length / N + 1 := by
      have h1 : (i + 1) * data.length = i * data.length + data.length := by
        ring
      rw [h1]
      exact div_add_lt_succ (i * data.length) data.length N hN hlt
    omega
  refine ⟨?_, hone⟩
  have hsum := (seg_flatten_sum data hN).2
  rw [sum_counts_eq_length _ hone] at hsum
  exact hsum

theorem segItem_idx (data : List (ℚ × Bool)) (N i : ℕ) {r : Segment}
    (h : segItem data N i = some r) : r.idx = i + 1 := by
  simp only [segItem] at h
  by_cases hge : segStart data.length N i ≥ segEnd data.length N i
  · rw [if_pos hge] at h
    cases h
  · rw [if_neg hge] at h
    simp only [Option.some.injEq] at h
    subst h
    rfl

/-- C4 counterexample: on a two-event series split into four segments, the
two emitted segments report indices `[2, 4]` (the original loop indices),
not the consecutive emission-order values `[1, 2]`. -/
theorem segment_avgs_idx_counterexample :
    (segment_avgs [((1:ℚ), false), ((2:ℚ), false)] 4).map Segment.idx = [2, 4] ∧
      (segment_avgs [((1:ℚ), false), ((2:ℚ), false)] 4).length = 2 ∧
      (segment_avgs [((1:ℚ), false), ((2:ℚ), false)] 4).map Segment.idx ≠ [1, 2] := by
  have hd : ¬(([((1:ℚ), false), ((2:ℚ), false)]) = ([] : List (ℚ × Bool))) := by
    simp
  refine ⟨?_, ?_, ?_⟩ <;>
  · simp only [segment_avgs, if_neg hd, show List.range 4 = [0, 1, 2, 3] from rfl,
      List.filterMap_cons, List.filterMap_nil]
    norm_num [segItem, segStart, segEnd, pyInt]

/-- C4 (amended): the 1-based index reported in each emitted segment of
`segment_avgs` is the original requested loop index plus one (its slice
boundaries are the ones computed from that index); indices strictly
increase in emission order but may skip values when segments are
skipped. -/
theorem segment_avgs_idx_original (data : List (ℚ × Bool)) (N : ℕ)
    (hN : 1 ≤ N) :
    List.Pairwise (· < ·) ((segment_avgs data N).map Segment.idx) ∧
      ∀ r ∈ segment_avgs data N, 1 ≤ r.idx ∧ r.idx ≤ N ∧
        r.startOrd = segStart data.length N (r.idx - 1) + 1 ∧
        r.endOrd = segEnd data.length N (r.idx - 1) := by
  constructor
  · rw [List.pairwise_map]
    unfold segment_avgs
    by_cases hd : data = []
    · rw [if_pos hd]
      exact List.Pairwise.nil
    · rw [if_neg hd, List.pairwise_filterMap]
      apply (List.pairwise_lt_range N).imp
      intro i j hij r hr r2 hr2
      have h1 := segItem_idx data N i (Option.mem_def.mp hr)
      have h2 := segItem_idx data N j (Option.mem_def.mp hr2)
      omega
  · intro r hr
    rcases segment_avgs_mem data N hr with ⟨i, hi, hsome⟩
    obtain ⟨hidx, hso, heo, _, _⟩ := segItem_fields data hN hi hsome
    refine ⟨by omega, by omega, ?_, ?_⟩
    · rw [hidx, Nat.add_sub_cancel, segStart_eq]
      exact hso
    · rw [hidx, Nat.add_sub_cancel, segEnd_eq hN hi]
      exact heo

/-- C2: for every non-empty ascending-sorted array and every
`p` in `{50, 90, 95, 99}`, `percentile` equals the specification's
linear-interpolation formula. -/
theorem percentile_matches_spec (s : List ℚ) (p : ℚ) (hne : s ≠ [])
    (hsort : s.Sorted (· ≤ ·)) (hp : p = 50 ∨ p = 90 ∨ p = 95 ∨ p = 99) :
    percentile s p = percentileSpec s p := by
  have hp0 : 0 ≤ p := by rcases hp with h | h | h | h <;> rw [h] <;> norm_num
  have hp1 : p ≤ 100 := by rcases hp with h | h | h | h <;> rw [h] <;> norm_num
  rw [percentile_formula s hne hp0 hp1, percentileSpec_formula s hne hp0 hp1]

/-- C10: the percentile helper is total on empty input: for every `p`,
`percentile [] p = 0`. -/
theorem percentile_nil (p : ℚ) : percentile [] p = 0 := rfl

theorem dropLit_length :
    ∀ (lit cs r : List Char), dropLit lit cs = some r →
      r.length + lit.length = cs.length := by
  intro lit
  induction lit with
  | nil =>
      intro cs r h
      simp only [dropLit, Option.some.injEq] at h
      subst h
      simp
  | cons l ls ih =>
      intro cs r h
      cases cs with
      | nil => cases h
      | cons c cs2 =>
          simp only [dropLit] at h
          by_cases hc : (c == l) = true
          · rw [if_pos hc] at h
            have := ih cs2 r h
            simp only [List.length_cons]
            omega
          · rw [if_neg hc] at h
            cases h

theorem dropSpaces1_length {cs r : List Char} (h : dropSpaces1 cs = some r) :
    r.length < cs.length := by
  cases cs with
  | nil => cases h
  | cons c rest =>
      simp only [dropSpaces1] at h
      by_cases hc : isPySpace c = true
      · rw [if_pos hc] at h
        simp only [Option.some.injEq] at h
        subst h
        have hsub : (rest.dropWhile isPySpace).Sublist rest :=
          List.dropWhile_sublist isPySpace
        have := hsub.length_le
        simp only [List.length_cons]
        omega
      · rw [if_neg hc] at h
        cases h

theorem takeDigits1_length {cs : List Char} {v : ℕ} {r : List Char}
    (h : takeDigits1 cs = some (v, r)) : r.length < cs.length := by
  simp only [takeDigits1] at h
  by_cases he : cs.takeWhile Char.isDigit = []
  · rw [if_pos he] at h
    cases h
  · rw [if_neg he] at h
    simp only [Option.some.injEq, Prod.mk.injEq] at h
    obtain ⟨_, hr⟩ := h
    subst hr
    have hsplit := List.takeWhile_append_dropWhile (p := Char.isDigit) (l := cs)
    have hlen := congrArg List.length hsplit
    rw [List.length_append] at hlen
    have hpos : 1 ≤ (cs.takeWhile Char.isDigit).length := by
      cases hq : cs.takeWhile Char.isDigit with
      | nil => exact absurd hq he
      | cons a as => simp
    omega

theorem matchFailTail_length {cs r : List Char} (h : matchFailTail cs = some r) :
    r.length < cs.length := by
  simp only [matchFailTail] at h
  cases hs : dropSpaces1 cs with
  | none => rw [hs] at h; cases h
  | some r2 =>
      rw [hs] at h
      have h1 := dropSpaces1_length hs
      have h2 := dropLit_length _ _ _ h
      omega

theorem matchAfterTag_length {cs : List Char} {ev : ℕ × Bool} {r : List Char}
    (h : matchAfterTag cs = some (ev, r)) : r.length < cs.length := by
  simp only [matchAfterTag, Option.bind_eq_bind, Option.bind_eq_some] at h
  obtain ⟨r2, h2, h⟩ := h
  obtain ⟨r3, h3, h⟩ := h
  obtain ⟨r4, h4, h⟩ := h
  obtain ⟨⟨ms, r5⟩, h5, h⟩ := h
  dsimp only at h
  obtain ⟨r6, h6, h⟩ := h
  obtain ⟨r7, h7, h⟩ := h
  have l2 := dropSpaces1_length h2
  have l3 := dropLit_length _ _ _ h3
  have l4 := dropSpaces1_length h4
  have l5 := takeDigits1_length h5
  have l6 := dropSpaces1_length h6
  have l7 := dropLit_length _ _ _ h7
  cases hf : matchFailTail r7 with
  | some r8 =>
      rw [hf] at h
      simp only [Option.some.injEq, Prod.mk.injEq] at h
      obtain ⟨_, hr⟩ := h
      subst hr
      have l8 := matchFailTail_length hf
      omega
  | none =>
      rw [hf] at h
      simp only [Option.some.injEq, Prod.mk.injEq] at h
      obtain ⟨_, hr⟩ := h
      subst hr
      omega

theorem tryMatch_length {cs : List Char} {ev : ℕ × Bool} {r : List Char}
    (h : tryMatch cs = some (ev, r)) : r.length < cs.length := by
  simp only [tryMatch, Option.bind_eq_bind, Option.bind_eq_some] at h
  obtain ⟨r1, h1, hm⟩ := h
  have l1 := dropLit_length _ _ _ h1
  have l2 := matchAfterTag_length hm
  have : 0 < ("[Fastbot]:".toList).length := by decide
  omega

theorem dropAnyTag_length {cs r : List Char} (h : dropAnyTag cs = some r) :
    r.length < cs.length := by
  cases cs with
  | nil => cases h
  | cons c rest =>
      simp only [dropAnyTag] at h
      by_cases hc : c = '['
      · rw [if_pos hc] at h
        by_cases he : rest.takeWhile (fun x => !(x == ']')) = []
        · rw [if_pos he] at h
          cases h
        · rw [if_neg he] at h
          cases hdw : rest.dropWhile (fun x => !(x == ']')) with
          | nil =>
              rw [hdw] at h
              cases h
          | cons c2 xs =>
              rw [hdw] at h
              dsimp only at h
              by_cases hc2 : c2 = ']'
              · rw [if_pos hc2] at h
                simp only [Option.some.injEq] at h
                subst h
                have hsub : (rest.dropWhile (fun x => !(x == ']'))).Sublist rest :=
                  List.dropWhile_sublist _
                have hlen := hsub.length_le
                rw [hdw] at hlen
                simp only [List.length_cons] at hlen ⊢
                omega
              · rw [if_neg hc2] at h
                cases h
      · rw [if_neg hc] at h
        cases h

theorem specTryMatch_length {cs : List Char} {ev : ℕ × Bool} {r : List Char}
    (h : specTryMatch cs = some (ev, r)) : r.length < cs.length := by
  simp only [specTryMatch, Option.bind_eq_bind, Option.bind_eq_some] at h
  obtain ⟨r0, h0, h⟩ := h
  obtain ⟨r1, h1, hm⟩ := h
  have l0 := dropAnyTag_length h0
  have l1 := dropLit_length _ _ _ h1
  have l2 := matchAfterTag_length hm
  omega

theorem scanWithFuel_congr (m : List Char → Option ((ℕ × Bool) × List Char))
    (hm : ∀ cs ev r, m cs = some (ev, r) → r.length < cs.length) :
    ∀ (f1 f2 : ℕ) (cs : List Char), cs.length ≤ f1 → cs.length ≤ f2 →
      scanWithFuel m f1 cs = scanWithFuel m f2 cs := by
  intro f1
  induction f1 with
  | zero =>
      intro f2 cs h1 h2
      have : cs = [] := List.eq_nil_of_length_eq_zero (by omega)
      subst this
      cases f2 <;> rfl
  | succ f1 ih =>
      intro f2 cs h1 h2
      cases cs with
      | nil => cases f2 <;> rfl
      | cons c rest =>
          simp only [List.length_cons] at h1 h2
          cases f2 with
          | zero => omega
          | succ g =>
              simp only [scanWithFuel]
              cases h : m (c :: rest) with
              | some evr =>
                  obtain ⟨ev, r⟩ := evr
                  have hr := hm _ _ _ h
                  simp only [List.length_cons] at hr
                  exact congrArg (ev :: ·) (ih g r (by omega) (by omega))
              | none =>
                  exact ih g rest (by omega) (by omega)

theorem parse_log_cons_match {c : Char} {rest : List Char} {ev : ℕ × Bool}
    {r : List Char} (h : tryMatch (c :: rest) = some (ev, r)) :
    parse_log (c :: rest) = ev :: parse_log r := by
  have hr := tryMatch_length h
  simp only [List.length_cons] at hr
  unfold parse_log
  rw [List.length_cons]
  simp only [scanWithFuel, h]
  exact congrArg (ev :: ·)
    (scanWithFuel_congr tryMatch (fun _ _ _ => tryMatch_length)
      rest.length r.length r (by omega) le_rfl)

theorem parse_log_cons_skip {c : Char} {rest : List Char}
    (h : tryMatch (c :: rest) = none) :
    parse_log (c :: rest) = parse_log rest := by
  unfold parse_log
  rw [List.length_cons]
  simp only [scanWithFuel, h]

theorem parse_log_match_any {cs : List Char} {ev : ℕ × Bool} {r : List Char}
    (hne : cs ≠ []) (h : tryMatch cs = some (ev, r)) :
    parse_log cs = ev :: parse_log r := by
  cases cs with
  | nil => exact absurd rfl hne
  | cons c rest => exact parse_log_cons_match h

theorem dropLit_self : ∀ (lit cs : List Char), dropLit lit (lit ++ cs) = some cs := by
  intro lit
  induction lit with
  | nil => intro cs; rfl
  | cons l ls ih =>
      intro cs
      simp only [List.cons_append, dropLit, beq_self_eq_true, if_true]
      exact ih cs

theorem space_not_digit {c : Char} (h : isPySpace c = true) :
    c.isDigit = false := by
  simp only [isPySpace, Bool.or_eq_true, beq_iff_eq] at h
  rcases h with ((((h | h) | h) | h) | h) | h <;> subst h <;> rfl

theorem digit_not_space {c : Char} (h : c.isDigit = true) :
    isPySpace c = false := by
  cases hs : isPySpace c
  · rfl
  · rw [space_not_digit hs] at h
    cases h

theorem dropSpaces1_space {y : Char} (hy : isPySpace y = false)
    (tail : List Char) : dropSpaces1 (' ' :: y :: tail) = some (y :: tail) := by
  simp only [dropSpaces1, show isPySpace ' ' = true from rfl, if_true,
    List.dropWhile_cons, hy]
  simp

theorem takeWhile_digits_append {ds : List Char} (hds : ∀ c ∈ ds, c.isDigit)
    {t : Char} (ht : t.isDigit = false) (tail : List Char) :
    (ds ++ t :: tail).takeWhile Char.isDigit = ds ∧
      (ds ++ t :: tail).dropWhile Char.isDigit = t :: tail := by
  induction ds with
  | nil => simp [List.takeWhile_cons, List.dropWhile_cons, ht]
  | cons d ds2 ih =>
      have hd : d.isDigit = true := hds d (List.mem_cons_self d ds2)
      obtain ⟨ih1, ih2⟩ := ih (fun c hc => hds c (List.mem_cons_of_mem d hc))
      simp [List.takeWhile_cons, List.dropWhile_cons, hd, ih1, ih2]

theorem takeDigits1_append {ds : List Char} (hds : goodDigits ds)
    (tail : List Char) :
    takeDigits1 (ds ++ ' ' :: tail) = some (digitsVal ds, ' ' :: tail) := by
  obtain ⟨hne, hall⟩ := hds
  obtain ⟨htw, hdw⟩ :=
    takeWhile_digits_append hall (show (' ').isDigit = false from rfl) tail
  simp only [takeDigits1, htw, hdw, if_neg hne]

theorem matchFailTail_marker (rest : List Char) :
    matchFailTail ((' ' :: "(buffer full or fail)".toList) ++ rest)
      = some rest := by
  simp only [matchFailTail]
  rw [show (' ' :: "(buffer full or fail)".toList) ++ rest
      = ' ' :: '(' :: ("buffer full or fail)".toList ++ rest) from rfl]
  rw [dropSpaces1_space (show isPySpace '(' = false from rfl)]
  dsimp only
  rw [show ('(' :: ("buffer full or fail)".toList ++ rest))
      = "(buffer full or fail)".toList ++ rest from rfl]
  exact dropLit_self _ _

theorem matchFailTail_none {t : List Char}
    (h : ∀ x ∈ (t.dropWhile isPySpace).head?, x ≠ '(') :
    matchFailTail t = none := by
  cases t with
  | nil => rfl
  | cons c rest =>
      simp only [matchFailTail, dropSpaces1]
      by_cases hc : isPySpace c = true
      · rw [if_pos hc]
        have hdw_eq : (c :: rest).dropWhile isPySpace
            = rest.dropWhile isPySpace := by
          rw [List.dropWhile_cons, if_pos hc]
        cases hdw : rest.dropWhile isPySpace with
        | nil => rfl
        | cons x xs =>
            have hx : x ≠ '(' := by
              apply h x
              rw [hdw_eq, hdw]
              rfl
            dsimp only
            rw [show "(buffer full or fail)".toList
                = '(' :: "buffer full or fail)".toList from rfl]
            simp only [dropLit]
            rw [if_neg (by simpa using hx)]
      · rw [if_neg hc]

theorem matchAfterTag_render {ds : List Char} (hds : goodDigits ds)
    (fail : Bool) (rest : List Char)
    (hnm : fail = false → matchFailTail rest = none) :
    matchAfterTag (' ' :: ("// dumpBinary:".toList ++ (' ' :: (ds ++
        (' ' :: 'm' :: 's' ::
          ((if fail then (' ' :: "(buffer full or fail)".toList) else [])
            ++ rest))))))
      = some ((digitsVal ds, fail), rest) := by
  obtain ⟨d, ds2, rfl⟩ : ∃ d ds2, ds = d :: ds2 := by
    cases hd : ds with
    | nil => exact absurd hd hds.1
    | cons a as => exact ⟨a, as, rfl⟩
  have hddig : d.isDigit = true := hds.2 d (List.mem_cons_self d ds2)
  simp only [matchAfterTag, Option.bind_eq_bind]
  rw [show "// dumpBinary:".toList ++ (' ' :: ((d :: ds2) ++
      (' ' :: 'm' :: 's' ::
        ((if fail then (' ' :: "(buffer full or fail)".toList) else [])
          ++ rest))))
    = '/' :: ("/ dumpBinary:".toList ++ (' ' :: ((d :: ds2) ++
      (' ' :: 'm' :: 's' ::
        ((if fail then (' ' :: "(buffer full or fail)".toList) else [])
          ++ rest))))) from rfl]
  rw [dropSpaces1_space (show isPySpace '/' = false from rfl)]
  simp only [Option.some_bind]
  rw [show ('/' :: ("/ dumpBinary:".toList ++ (' ' :: ((d :: ds2) ++
      (' ' :: 'm' :: 's' ::
        ((if fail then (' ' :: "(buffer full or fail)".toList) else [])
          ++ rest))))))
    = "// dumpBinary:".toList ++ (' ' :: ((d :: ds2) ++
      (' ' :: 'm' :: 's' ::
        ((if fail then (' ' :: "(buffer full or fail)".toList) else [])
          ++ rest)))) from rfl]
  rw [dropLit_self]
  simp only [Option.some_bind]
  rw [show ((d :: ds2) ++ (' ' :: 'm' :: 's' ::
      ((if fail then (' ' :: "(buffer full or fail)".toList) else [])
        ++ rest)))
    = d :: (ds2 ++ (' ' :: 'm' :: 's' ::
      ((if fail then (' ' :: "(buffer full or fail)".toList) else [])
        ++ rest))) from rfl]
  rw [dropSpaces1_space (digit_not_space hddig)]
  simp only [Option.some_bind]
  rw [show (d :: (ds2 ++ (' ' :: 'm' :: 's' ::
      ((if fail then (' ' :: "(buffer full or fail)".toList) else [])
        ++ rest))))
    = (d :: ds2) ++ (' ' :: ('m' :: 's' ::
      ((if fail then (' ' :: "(buffer full or fail)".toList) else [])
        ++ rest))) from rfl]
  rw [takeDigits1_append hds]
  simp only [Option.some_bind]
  rw [dropSpaces1_space (show isPySpace 'm' = false from rfl)]
  simp only [Option.some_bind]
  rw [show ('m' :: 's' ::
      ((if fail then (' ' :: "(buffer full or fail)".toList) else [])
        ++ rest))
    = "ms".toList ++
      ((if fail then (' ' :: "(buffer full or fail)".toList) else [])
        ++ rest) from rfl]
  rw [dropLit_self]
  simp only [Option.some_bind]
  cases fail with
  | true =>
      rw [show (if (true : Bool) then (' ' :: "(buffer full or fail)".toList)
          else ([] : List Char)) = ' ' :: "(buffer full or fail)".toList
          from rfl]
      rw [matchFailTail_marker]
  | false =>
      rw [show (if (false : Bool) then (' ' :: "(buffer full or fail)".toList)
          else ([] : List Char)) = [] from rfl]
      rw [List.nil_append, hnm rfl]

theorem renderEvent_shape (ds : List Char) (fail : Bool) (rest : List Char) :
    renderEvent ds fail ++ rest
      = "[Fastbot]:".toList ++ (' ' :: ("// dumpBinary:".toList ++ (' ' :: (ds ++
          (' ' :: 'm' :: 's' ::
            ((if fail then (' ' :: "(buffer full or fail)".toList) else [])
              ++ rest)))))) := by
  cases fail <;>
    simp [renderEvent,
      show "[Fastbot]: // dumpBinary: ".toList
        = "[Fastbot]:".toList ++ (' ' :: ("// dumpBinary:".toList ++ [' ']))
        from rfl,
      show " ms".toList = [' ', 'm', 's'] from rfl,
      show " (buffer full or fail)".toList
        = ' ' :: "(buffer full or fail)".toList from rfl,
      List.append_assoc]

theorem renderEvent_head (ds : List Char) (fail : Bool) (rest : List Char) :
    ∃ Y, renderEvent ds fail ++ rest = '[' :: Y := by
  refine ⟨"Fastbot]: // dumpBinary: ".toList ++ (ds ++ (" ms".toList ++
    ((if fail then " (buffer full or fail)".toList else []) ++ rest))), ?_⟩
  simp only [renderEvent]
  rw [show "[Fastbot]: // dumpBinary: ".toList
      = '[' :: "Fastbot]: // dumpBinary: ".toList from rfl]
  simp [List.append_assoc]

theorem tryMatch_render {ds : List Char} (hds : goodDigits ds) (fail : Bool)
    (rest : List Char) (hnm : fail = false → matchFailTail rest = none) :
    tryMatch (renderEvent ds fail ++ rest)
      = some ((digitsVal ds, fail), rest) := by
  rw [renderEvent_shape]
  simp only [tryMatch, Option.bind_eq_bind]
  rw [dropLit_self]
  simp only [Option.some_bind]
  exact matchAfterTag_render hds fail rest hnm

theorem tryMatch_no_lbracket {c : Char} (hc : c ≠ '[') (rest : List Char) :
    tryMatch (c :: rest) = none := by
  simp only [tryMatch, Option.bind_eq_bind]
  rw [show "[Fastbot]:".toList = '[' :: "Fastbot]:".toList from rfl]
  simp only [dropLit]
  rw [if_neg (by simpa using hc)]
  rfl

theorem parse_log_junk_append {j : List Char} (hj : goodJunk j)
    (rest : List Char) : parse_log (j ++ rest) = parse_log rest := by
  induction j with
  | nil => rfl
  | cons c j2 ih =>
      have hc : c ≠ '[' := (hj c (List.mem_cons_self c j2)).1
      have hj2 : goodJunk j2 := fun x hx => hj x (List.mem_cons_of_mem c hx)
      rw [List.cons_append, parse_log_cons_skip (tryMatch_no_lbracket hc _),
        ih hj2]

theorem parse_log_junk {j : List Char} (hj : goodJunk j) : parse_log j = [] := by
  calc parse_log j = parse_log (j ++ []) := by rw [List.append_nil]
  _ = parse_log [] := parse_log_junk_append hj []
  _ = [] := rfl

theorem dropWhile_head_ne_lparen {j X : List Char} (hj : goodJunk j)
    (hX : X = [] ∨ ∃ Y, X = '[' :: Y) :
    ∀ x ∈ ((j ++ X).dropWhile isPySpace).head?, x ≠ '(' := by
  induction j with
  | nil =>
      rcases hX with rfl | ⟨Y, rfl⟩
      · simp
      · intro x hx
        rw [List.nil_append, List.dropWhile_cons,
          if_neg (by simp [isPySpace])] at hx
        simp only [List.head?_cons, Option.mem_def, Option.some.injEq] at hx
        subst hx
        simp
  | cons c j2 ih =>
      intro x hx
      have hc := hj c (List.mem_cons_self c j2)
      have hj2 : goodJunk j2 := fun y hy => hj y (List.mem_cons_of_mem c hy)
      rw [List.cons_append, List.dropWhile_cons] at hx
      by_cases hcs : isPySpace c = true
      · rw [if_pos hcs] at hx
        exact ih hj2 x hx
      · rw [if_neg hcs] at hx
        simp only [List.head?_cons, Option.mem_def, Option.some.injEq] at hx
        subst hx
        exact hc.2

/-- C5 (amended): the extractor emits exactly one event per occurrence of a
well-formed event line whose bracketed tag is the literal `[Fastbot]` (not
an arbitrary bracketed tag), with the event's duration the parsed integer
and `failed` true iff the parenthesized marker is present: for any list of
blocks, each made of marker-free junk (no `[`, no `(`) followed by a
rendered event line, followed by trailing junk, `parse_log` returns
exactly the events of the blocks in order. -/
theorem parse_log_event_blocks
    (blocks : List (List Char × List Char × Bool)) (jEnd : List Char)
    (hb : ∀ b ∈ blocks, goodJunk b.1 ∧ goodDigits b.2.1)
    (hje : goodJunk jEnd) :
    parse_log
        ((blocks.map (fun b => b.1 ++ renderEvent b.2.1 b.2.2)).flatten ++ jEnd)
      = blocks.map (fun b => (digitsVal b.2.1, b.2.2)) := by
  induction blocks with
  | nil =>
      simpa using parse_log_junk hje
  | cons b bs ih =>
      obtain ⟨j, ds, fail⟩ := b
      have hgb := hb _ (List.mem_cons_self _ bs)
      have hbs : ∀ x ∈ bs, goodJunk x.1 ∧ goodDigits x.2.1 :=
        fun x hx => hb x (List.mem_cons_of_mem _ hx)
      simp only [List.map_cons, List.flatten_cons, List.append_assoc]
      rw [parse_log_junk_append hgb.1]
      have hnm : fail = false →
          matchFailTail
            ((bs.map (fun b => b.1 ++ renderEvent b.2.1 b.2.2)).flatten ++ jEnd)
            = none := by
        intro _
        apply matchFailTail_none
        cases bs with
        | nil =>
            simpa using dropWhile_head_ne_lparen hje (Or.inl rfl)
        | cons b2 bs2 =>
            obtain ⟨j2, ds2, f2⟩ := b2
            have hj2 : goodJunk j2 := (hbs _ (List.mem_cons_self _ bs2)).1
            simp only [List.map_cons, List.flatten_cons, List.append_assoc]
            exact dropWhile_head_ne_lparen hj2
              (Or.inr (renderEvent_head ds2 f2 _))
      have hmatch := tryMatch_render hgb.2 fail
        ((bs.map (fun b => b.1 ++ renderEvent b.2.1 b.2.2)).flatten ++ jEnd) hnm
      obtain ⟨Y, hY⟩ := renderEvent_head ds fail
        ((bs.map (fun b => b.1 ++ renderEvent b.2.1 b.2.2)).flatten ++ jEnd)
      rw [hY] at hmatch ⊢
      rw [parse_log_cons_match hmatch, ih hbs]

/-- C5 counterexample: on the text `[Other]: // dumpBinary: 5 ms` the
claim's pattern (any bracketed tag) matches once, expecting the event
`(5, false)`, but `parse_log` — whose pattern requires the literal tag
`[Fastbot]` — produces no event. -/
theorem parse_log_anytag_counterexample :
    parse_log "[Other]: // dumpBinary: 5 ms".toList = [] ∧
      specParseAnyTag "[Other]: // dumpBinary: 5 ms".toList = [(5, false)] ∧
      parse_log "[Fastbot]: // dumpBinary: 5 ms".toList = [(5, false)] := by
  refine ⟨by decide, by decide, by decide⟩

/-- C7: the driver exits 1 when the first log file is missing and 2 when
the first exists but the second is missing, writing the diagnostic to
stderr and doing no parsing or output in either case; when both files
exist the run completes with exit status 0. -/
theorem mainRun_exit_codes :
    (∀ e2 : Bool, mainRun false e2 =
      { exitCode := 1, stderrLines := ["Missing fastbot1.log"],
        stdoutHasReport := false, parsedLogs := false }) ∧
      mainRun true false =
        { exitCode := 2, stderrLines := ["Missing fastbot2.log"],
          stdoutHasReport := false, parsedLogs := false } ∧
      mainRun true true =
        { exitCode := 0, stderrLines := [], stdoutHasReport := true,
          parsedLogs := true } := by
  exact ⟨fun _ => rfl, rfl, rfl⟩

theorem segment_avgs_partition_witness :
    ((segment_avgs exPair 4).map (segSlice exPair)).flatten = exPair ∧
      ((segment_avgs exPair 4).map Segment.count).sum = exPair.length :=
  segment_avgs_partition exPair 4 (by norm_num)

theorem percentile_matches_spec_witness :
    percentile [10, 20, 30] 50 = percentileSpec [10, 20, 30] 50 ∧
      percentile [10, 20, 30] 50 = 20 ∧ percentile [(7:ℚ)] 99 = 7 := by
  refine ⟨percentile_matches_spec [10, 20, 30] 50 (by simp)
    (by norm_num [List.sorted_cons]) (Or.inl rfl), ?_, ?_⟩
  · have h : ¬(([10, 20, 30] : List ℚ) = []) := by simp
    norm_num [percentile, pyInt, h]
  · have h : ¬(([(7:ℚ)] : List ℚ) = []) := by simp
    norm_num [percentile, pyInt, h]

theorem stats_invariants_witness :
    exStats.fails ≤ exStats.n ∧ exStats.min ≤ exStats.p50 ∧
      exStats.p50 ≤ exStats.p90 ∧ exStats.p90 ≤ exStats.p95 ∧
      exStats.p95 ≤ exStats.p99 ∧ exStats.p99 ≤ exStats.max :=
  stats_invariants exSeries "ex" (by simp [exSeries]) exStats (by
    have h1 : ¬([((10:ℚ), false), ((20:ℚ), true)] = ([] : List (ℚ × Bool))) := by
      simp
    have h2 : ¬(([10, 20] : List ℚ) = []) := by simp
    norm_num [stats, exSeries, exStats, percentile, pyInt, pyMin, pyMax,
      List.insertionSort, List.orderedInsert, h1, h2])

theorem stats_all_equal_witness :
    exConstStats.min = 5 ∧ exConstStats.max = 5 ∧ exConstStats.mean = 5 ∧
      exConstStats.p50 = 5 ∧ exConstStats.p90 = 5 ∧ exConstStats.p95 = 5 ∧
      exConstStats.p99 = 5 :=
  stats_all_equal exConstSeries 5 "ex" (by simp [exConstSeries])
    (by
      intro x hx
      simp only [exConstSeries, List.mem_cons, List.not_mem_nil, or_false] at hx
      rcases hx with h | h <;> simp [h])
    exConstStats (by
      have h1 : ¬([((5:ℚ), true), ((5:ℚ), false)] = ([] : List (ℚ × Bool))) := by
        simp
      have h2 : ¬(([5, 5] : List ℚ) = []) := by simp
      norm_num [stats, exConstSeries, exConstStats, percentile, pyInt, pyMin,
        pyMax, List.insertionSort, List.orderedInsert, h1, h2])

theorem segment_avgs_idx_original_witness :
    List.Pairwise (· < ·) ((segment_avgs exPair 4).map Segment.idx) ∧
      ∀ r ∈ segment_avgs exPair 4, 1 ≤ r.idx ∧ r.idx ≤ 4 ∧
        r.startOrd = segStart exPair.length 4 (r.idx - 1) + 1 ∧
        r.endOrd = segEnd exPair.length 4 (r.idx - 1) :=
  segment_avgs_idx_original exPair 4 (by norm_num)

theorem parse_log_event_blocks_witness :
    parse_log
        ((([([], "120".toList, false), (['\x0a'], "340".toList, true)]).map
          (fun b => b.1 ++ renderEvent b.2.1 b.2.2)).flatten ++ ['\x0a'])
      = [(120, false), (340, true)] := by
  rw [parse_log_event_blocks [([], "120".toList, false),
    (['\x0a'], "340".toList, true)] ['\x0a']
    (by
      intro b hb
      simp only [List.mem_cons, List.not_mem_nil, or_false] at hb
      rcases hb with rfl | rfl <;>
        exact ⟨by unfold goodJunk; decide, by unfold goodDigits; decide⟩)
    (by unfold goodJunk; decide)]
  decide

theorem segment_avgs_small_series_witness :
    (segment_avgs exPair 4).length = exPair.length ∧
      ∀ r ∈ segment_avgs exPair 4, r.count = 1 :=
  segment_avgs_small_series exPair 4 (by simp [exPair]) (by norm_num [exPair])

theorem segment_avgs_safety_witness :
    (∀ i < 4, segStart exPair.length 4 i ≤ segEnd exPair.length 4 i) ∧
      (∀ r ∈ segment_avgs exPair 4, 1 ≤ r.count) ∧
      (∀ i < 4, segItem exPair 4 i = none ↔
        segStart exPair.length 4 i = segEnd exPair.length 4 i) :=
  segment_avgs_safety exPair 4 (by norm_num)

end DumpBinary
